import Mathlib

set_option maxRecDepth 20000

/-!
Verification development for the step-sequencing chat bot (`bot.py`).

The embedding models text as `List Char` (Python `str` length and indexing
are by code point, matching `List Char` length), the per-identity database
row as an `Option UserRow` (the `UPDATE ... WHERE user_id=?` statements are
no-ops when the row is absent), and the transport as an oracle assigning an
outcome to each send call of a render, in order.  Each definition mirrors
one function of the source file.
-/

namespace FabrBot

/-- Whitespace test matching the whitespace classes used by the source's
regular expressions and `str.strip` on the inputs in scope. -/
def isSpaceChar (c : Char) : Bool :=
  c = ' ' || c = '\t' || c = '\n' || c = '\r' || c = '\x0b' || c = '\x0c'

/-- Decides whether the first list is an initial segment of the second. -/
def startsWithL : List Char → List Char → Bool
  | [], _ => true
  | _ :: _, [] => false
  | a :: as, b :: bs => a = b && startsWithL as bs

/-- Splits on every newline character, keeping empty pieces
(the raw `text.split` with a one-character separator). -/
def splitNl : List Char → List (List Char)
  | [] => [[]]
  | '\n' :: rest => [] :: splitNl rest
  | c :: rest =>
    match splitNl rest with
    | p :: ps => (c :: p) :: ps
    | [] => [[c]]

/-- Python `str.splitlines` restricted to `\n` line ends: empty text gives no
lines, and a trailing newline does not produce a trailing empty line. -/
def splitLinesPy (l : List Char) : List (List Char) :=
  if l.isEmpty then []
  else if l.getLast? = some '\n' then (splitNl l).dropLast
  else splitNl l

/-- Python `str.strip`: removes leading and trailing whitespace. -/
def stripChars (l : List Char) : List Char :=
  ((l.dropWhile isSpaceChar).reverse.dropWhile isSpaceChar).reverse

/-- The literal `Кнопка [` that opens a confirmation-label line. -/
def buttonMarkChars : List Char := ['К', 'н', 'о', 'п', 'к', 'а', ' ', '[']

/-- Decides the anchored label-line pattern of `_clean_chunk_text`: after
stripping surrounding whitespace the line is `Кнопка [`, at least one
character, then a final `]` (regex `^\s*Кнопка \[.+?\]\s*$`). -/
def isButtonLine (l : List Char) : Bool :=
  let t := stripChars l
  startsWithL buttonMarkChars t && (t.getLast? == some ']')
    && decide (buttonMarkChars.length + 2 ≤ t.length)

/-- Attempts to read `video <digits>]` at the head of the list (the part of
the marker regex `\[video \d+\]` after its opening bracket); on success
returns the suffix after the closing bracket. -/
def matchMarker : List Char → Option (List Char)
  | 'v' :: 'i' :: 'd' :: 'e' :: 'o' :: ' ' :: rest =>
    let ds := rest.takeWhile Char.isDigit
    let rest2 := rest.dropWhile Char.isDigit
    if ds.isEmpty then none
    else
      match rest2 with
      | ']' :: tail => some tail
      | _ => none
  | _ => none

/-- Left-to-right scan deleting every leftmost non-overlapping occurrence of
the video marker, as `re.sub` does; the fuel argument is initialised with
the length of the list, which bounds the recursion. -/
def stripMarkers : Nat → List Char → List Char
  | 0, l => l
  | _ + 1, [] => []
  | fuel + 1, c :: rest =>
    if c = '[' then
      match matchMarker rest with
      | some tail => stripMarkers fuel tail
      | none => c :: stripMarkers fuel rest
    else c :: stripMarkers fuel rest

/-- The `re.sub(r"\[video \d+\]", "", line)` call of `_clean_chunk_text`. -/
def removeVideoMarkers (l : List Char) : List Char := stripMarkers l.length l

/-- Decides whether a video marker `[video <digits>]` occurs anywhere. -/
def hasMarker : List Char → Bool
  | [] => false
  | c :: rest => (c = '[' && (matchMarker rest).isSome) || hasMarker rest

/-- A line whose `strip` is empty, i.e. all whitespace. -/
def blankLine (l : List Char) : Bool := l.all isSpaceChar

/-- Removes the blank lines at both ends of a line list (the two `while`
pop loops of `_clean_chunk_text`). -/
def dropBlankEnds (ls : List (List Char)) : List (List Char) :=
  ((ls.dropWhile blankLine).reverse.dropWhile blankLine).reverse

/-- The per-line body of `_clean_chunk_text`: drop label lines, delete video
markers from the kept lines, then trim blank lines at both ends. -/
def cleanLines (ls : List (List Char)) : List (List Char) :=
  dropBlankEnds ((ls.filter fun x => !isButtonLine x).map removeVideoMarkers)

/-- Joins lines with a newline, as `"\n".join(lines)`. -/
def joinNl (ls : List (List Char)) : List Char := List.intercalate ['\n'] ls

/-- The whole of `_clean_chunk_text`. -/
def cleanChunkText (chunk : List Char) : List Char :=
  joinNl (cleanLines (splitLinesPy chunk))

/-- The opening emphasis tag `<b>` written by `_bold_first_line`. -/
def bOpenChars : List Char := ['<', 'b', '>']

/-- The closing emphasis tag `</b>` written by `_bold_first_line`. -/
def bCloseChars : List Char := ['<', '/', 'b', '>']

/-- Wraps the first line whose `strip` is non-empty in the emphasis tags and
leaves everything else unchanged, as the loop of `_bold_first_line`. -/
def boldLines : List (List Char) → List (List Char)
  | [] => []
  | l :: ls =>
    if blankLine l then l :: boldLines ls
    else (bOpenChars ++ l ++ bCloseChars) :: ls

/-- The whole of `_bold_first_line`. -/
def boldFirstLine (t : List Char) : List Char := joinNl (boldLines (splitLinesPy t))

/-- The paragraph separator `"\n\n"`. -/
def nl2 : List Char := ['\n', '\n']

/-- Python `text.split("\n\n")`: split on every leftmost non-overlapping
occurrence of the two-newline separator, keeping empty pieces. -/
def splitOnNl2 : List Char → List (List Char)
  | [] => [[]]
  | '\n' :: '\n' :: rest => [] :: splitOnNl2 rest
  | c :: rest =>
    match splitOnNl2 rest with
    | p :: ps => (c :: p) :: ps
    | [] => [[c]]

/-- The greedy paragraph-accumulation loop of `_split_text`.  The check
`if not current` is performed on every iteration, exactly as in the
source. -/
def splitTextLoop (maxLen : Nat) : List (List Char) → List Char → List (List Char)
  | [], current => if current.isEmpty then [] else [current]
  | para :: rest, current =>
    if current.isEmpty then splitTextLoop maxLen rest para
    else if current.length + 2 + para.length ≤ maxLen then
      splitTextLoop maxLen rest (current ++ nl2 ++ para)
    else current :: splitTextLoop maxLen rest para

/-- Fixed-size slicing `part[i : i + maxLen]` of the oversized-part pass of
`_split_text`; fuel is initialised with the length of the list.  The source
raises for `max_len = 0` (its callers always pass 3500); the model is total
and the theorems about slicing are stated for positive lengths. -/
def chunksOfAux (n : Nat) : Nat → List Char → List (List Char)
  | 0, _ => []
  | _, [] => []
  | fuel + 1, l => l.take n :: chunksOfAux n fuel (l.drop n)

/-- Slices a list into windows of `n` characters. -/
def chunksOf (n : Nat) (l : List Char) : List (List Char) := chunksOfAux n l.length l

/-- The whole of `_split_text`. -/
def splitText (text : List Char) (maxLen : Nat) : List (List Char) :=
  if text.length ≤ maxLen then [text]
  else
    let parts := splitTextLoop maxLen (splitOnNl2 text) []
    parts.flatMap fun part =>
      if part.length ≤ maxLen then [part] else chunksOf maxLen part

/-- A parsed step: cleaned body text, optional confirmation label, ordered
media references.  A media reference is carried by its numeric id `N` (the
`<N>` of the marker, which is also the key used for the cached-file lookup
and names the file `video N.mp4`). -/
structure Step where
  text : List Char
  button : Option (List Char)
  videos : List Nat
deriving DecidableEq

/-- Python truthiness of the `button` field: `if step.button:` is false both
for `None` and for an empty label string. -/
def hasBtn (s : Step) : Bool :=
  match s.button with
  | some b => !b.isEmpty
  | none => false

/-- The `while idx < len(steps)` walk of `send_from_index`, expressed on the
list suffix: returns the rendered indices and `some i` when the walk stopped
on the gated step `i`, `none` when it ran off the end. -/
def walkFrom : List Step → Nat → List Nat × Option Nat
  | [], _ => ([], none)
  | s :: rest, idx =>
    if hasBtn s then ([idx], some idx)
    else
      let r := walkFrom rest (idx + 1)
      (idx :: r.1, r.2)

/-- The sequencing effect of `send_from_index steps fromIdx`: the list of
rendered step indices, the persisted `last_step` value, and the `completed`
flag passed to `update_user_progress`. -/
def sendFromIndexPure (steps : List Step) (f : Nat) : List Nat × Nat × Bool :=
  match walkFrom (List.drop f steps) f with
  | (r, some i) => (r, i, false)
  | (r, none) => (r, steps.length, true)

/-- The profile fields written on every upsert. -/
structure Profile where
  username : Option (List Char)
  firstName : Option (List Char)
  lastName : Option (List Char)
  languageCode : Option (List Char)
deriving DecidableEq

/-- One row of the `users` table (the columns the inbound handlers read or
write; timestamps are modelled as naturals passed in by the caller). -/
structure UserRow where
  username : Option (List Char)
  firstName : Option (List Char)
  lastName : Option (List Char)
  languageCode : Option (List Char)
  isActive : Bool
  lastStep : Option Nat
  completedAt : Option Nat
deriving DecidableEq

/-- `upsert_user`: update the profile fields and set `is_active = 1` when the
row exists, otherwise insert a fresh row with `is_active = 1` and NULL
`last_step` and `completed_at`. -/
def upsertUser (p : Profile) : Option UserRow → Option UserRow
  | some r =>
    some { r with
      username := p.username, firstName := p.firstName,
      lastName := p.lastName, languageCode := p.languageCode,
      isActive := true }
  | none => some ⟨p.username, p.firstName, p.lastName, p.languageCode, true, none, none⟩

/-- `set_user_inactive`: clears the active flag of an existing row. -/
def setUserInactive : Option UserRow → Option UserRow :=
  Option.map fun r => { r with isActive := false }

/-- `update_user_progress`: always writes `last_step`; writes the current
timestamp into `completed_at` when `completed` is true and keeps the stored
value otherwise (`CASE WHEN ? THEN CURRENT_TIMESTAMP ELSE completed_at END`);
a no-op when the row does not exist. -/
def updateUserProgress (now lastStep : Nat) (completed : Bool) :
    Option UserRow → Option UserRow :=
  Option.map fun r =>
    { r with
      lastStep := some lastStep,
      completedAt := if completed then some now else r.completedAt }

/-- The per-conversation state: the database row of the identity and the
ephemeral `context.user_data["step_index"]` cursor. -/
structure BotState where
  row : Option UserRow
  cursor : Option Nat
deriving DecidableEq

/-- `send_from_index` as a state transformer: runs the walk, persists the
result, sets the session cursor; also returns the rendered indices. -/
def applySendFromIndex (steps : List Step) (now f : Nat) (st : BotState) :
    BotState × List Nat :=
  let r := sendFromIndexPure steps f
  (⟨updateUserProgress now r.2.1 r.2.2 st.row, some r.2.1⟩, r.1)

/-- The `/start` handler: upsert the profile, reset the session cursor to 0,
then `send_from_index` from 0. -/
def startOp (steps : List Step) (now : Nat) (p : Profile) (st : BotState) :
    BotState × List Nat :=
  applySendFromIndex steps now 0 ⟨upsertUser p st.row, some 0⟩

/-- The `/reset` handler: an extra upsert followed by the `/start` body. -/
def resetOp (steps : List Step) (now : Nat) (p : Profile) (st : BotState) :
    BotState × List Nat :=
  startOp steps now p ⟨upsertUser p st.row, st.cursor⟩

/-- The free-text message handler `handle_text`: its body is a bare
`return`, so every text message leaves the state untouched. -/
def handleTextOp (st : BotState) (_msg : List Char) : BotState := st

/-- The literal `step:` that opens every inline-control callback payload. -/
def stepColonChars : List Char := ['s', 't', 'e', 'p', ':']

/-- Decimal value of a digit string. -/
def digitsToNat (ds : List Char) : Nat :=
  ds.foldl (fun acc c => acc * 10 + (c.toNat - 48)) 0

/-- Parses a callback payload of the canonical shape `step:` followed by
ASCII digits — the only shape the bot itself attaches to its inline
controls, on which this agrees exactly with the `startswith`/`int` guard of
`handle_callback`.  The source's guard is wider: `int()` also accepts
surrounding whitespace, a sign, underscores between digits and non-ASCII
decimal digits; `handleCallbackK` below models the handler at that
parsed-integer interface, and on canonical payloads the two handlers agree
(`handleCallback_agrees_parsed`). -/
def parseCb (data : List Char) : Option Nat :=
  if startsWithL stepColonChars data then
    let rest := data.drop stepColonChars.length
    if !rest.isEmpty && rest.all Char.isDigit then some (digitsToNat rest) else none
  else none

/-- The callback handler `handle_callback`: upsert first, then on a valid
payload `step:k` run `send_from_index` from `k + 1`; malformed payloads are
silently dropped after the upsert. -/
def handleCallback (steps : List Step) (now : Nat) (p : Profile) (data : List Char)
    (st : BotState) : BotState × List Nat :=
  let st1 : BotState := ⟨upsertUser p st.row, st.cursor⟩
  match parseCb data with
  | some k => applySendFromIndex steps now (k + 1) st1
  | none => (st1, [])

/-- The callback handler `handle_callback` at the parsed-payload interface:
the argument carries the outcome of the source's guard — the check
`data.startswith("step:")` followed by `int` on the part after the colon —
which is `none` when the guard rejects the payload and otherwise the parsed
(possibly signed) integer `k`, on which the source runs
`send_from_index(chat_id, k + 1)`.  For `k + 1 ≥ 0` that walk is
`applySendFromIndex` at `(k + 1).toNat`, exactly the source; for
`k + 1 < 0` the source would index the step list from its end (Python's
negative indexing, which can even persist a negative cursor), a regime the
natural-valued row model does not represent — there `Int.toNat` clamps the
walk to start 0, and every theorem exercising a callback requires
`k + 1` to be at least the stored index, which keeps the walk start in the
faithful regime. -/
def handleCallbackK (steps : List Step) (now : Nat) (p : Profile) (k? : Option Int)
    (st : BotState) : BotState × List Nat :=
  let st1 : BotState := ⟨upsertUser p st.row, st.cursor⟩
  match k? with
  | some k => applySendFromIndex steps now (k + 1).toNat st1
  | none => (st1, [])

/-- The media message handler `handle_media`: upserts the user and replies
with the file id; no progress state is touched. -/
def handleMediaOp (p : Profile) (st : BotState) : BotState :=
  ⟨upsertUser p st.row, st.cursor⟩

/-- An inbound signal of the sequencing engine. -/
inductive Sig where
  | sigStart (p : Profile)
  | sigReset (p : Profile)
  | sigText (m : List Char)
  | sigCb (p : Profile) (data : List Char)
deriving DecidableEq

/-- Dispatches one inbound signal to its handler. -/
def applySig (steps : List Step) (now : Nat) (st : BotState) : Sig → BotState
  | .sigStart p => (startOp steps now p st).1
  | .sigReset p => (resetOp steps now p st).1
  | .sigText m => handleTextOp st m
  | .sigCb p data => (handleCallback steps now p data st).1

/-- The persisted `last_step` of the identity, read as 0 when the row is
absent or the column is NULL (no write has happened yet). -/
def lastOf (st : BotState) : Nat :=
  match st.row with
  | some r => r.lastStep.getD 0
  | none => 0

/-- An inbound signal with the callback taken at the parsed-payload
interface of `handleCallbackK`: the `Option Int` is the outcome of the
source's payload guard, so every payload `int()` accepts — whatever its
spelling — is represented by its integer value, and every rejected payload
by `none`. -/
inductive SigI where
  | sigStart (p : Profile)
  | sigReset (p : Profile)
  | sigText (m : List Char)
  | sigCb (p : Profile) (k? : Option Int)
deriving DecidableEq

/-- Dispatches one inbound signal to its handler. -/
def applySigI (steps : List Step) (now : Nat) (st : BotState) : SigI → BotState
  | .sigStart p => (startOp steps now p st).1
  | .sigReset p => (resetOp steps now p st).1
  | .sigText m => handleTextOp st m
  | .sigCb p k? => (handleCallbackK steps now p k? st).1

/-- Folds a timed signal sequence over the state. -/
def runSigsI (steps : List Step) : List (Nat × SigI) → BotState → BotState
  | [], st => st
  | (now, sig) :: rest, st => runSigsI steps rest (applySigI steps now st sig)

/-- A signal that is neither a start nor a reset and, for a callback whose
payload the guard accepts with value `k`, does not target a point strictly
behind the stored cursor: `k + 1` is at least the stored index. -/
def freshSigI (st : BotState) : SigI → Prop
  | .sigText _ => True
  | .sigCb _ k? => ∀ k, k? = some k → (lastOf st : Int) ≤ k + 1
  | _ => False

/-- Every signal of the trace is fresh for the state it meets. -/
def FreshTraceI (steps : List Step) : BotState → List (Nat × SigI) → Prop
  | _, [] => True
  | st, (now, sig) :: rest =>
    freshSigI st sig ∧ FreshTraceI steps (applySigI steps now st sig) rest

/-- Whether the step at index `j` is gated. -/
def isGatedAt (steps : List Step) (j : Nat) : Bool :=
  match steps[j]? with
  | some s => hasBtn s
  | none => false

/-- Outcome of one transport call: success, a generic delivery failure
(`Exception`), or the definitive unreachable signal (`Unauthorized`). -/
inductive Outcome where
  | ok
  | failed
  | unreachable
deriving DecidableEq

/-- The environment of a render: the cached-file map `FILE_ID_MAP` (by the
numeric id of the reference) and the existence of the local file. -/
structure RenderEnv where
  fileId : Nat → Option (List Char)
  pathExists : Nat → Bool

/-- One transport call of `send_step`, tagged with whether the confirmation
control was attached to it. -/
inductive Op where
  | msg (chunk : List Char) (kb : Bool)
  | videoCached (fid : List Char) (kb : Bool)
  | videoFile (n : Nat) (kb : Bool)
  | noticeFail (n : Nat) (kb : Bool)
  | noticeMissing (n : Nat) (kb : Bool)
  | noticeEmpty (kb : Bool)
deriving DecidableEq

/-- Result of a render phase: the transport calls attempted in order,
whether `set_user_inactive` was called, and whether the phase left the
function early (a `return` after `Unauthorized`, or an uncaught exception
propagating out). -/
structure PhaseRes where
  ops : List Op
  inactive : Bool
  halted : Bool
deriving DecidableEq

/-- The text-chunk loop of `send_step`.  Text sends happen first, so the
chunk position and the call counter coincide in `k`.  An `Unauthorized`
flags the identity inactive and returns; a generic exception on
`send_message` is not caught there and propagates. -/
def textLoop (oc : Nat → Outcome) (kb hasV : Bool) (total : Nat) :
    List (List Char) → Nat → PhaseRes
  | [], _ => ⟨[], false, false⟩
  | chunk :: rest, k =>
    let attach := !hasV && kb && decide (k = total - 1)
    let op := Op.msg chunk attach
    match oc k with
    | .ok =>
      let r := textLoop oc kb hasV total rest (k + 1)
      ⟨op :: r.ops, r.inactive, r.halted⟩
    | .unreachable => ⟨[op], true, true⟩
    | .failed => ⟨[op], false, true⟩

/-- The media loop of `send_step`: `i` is the position among the media
references (the control attaches at the last one), `k` the transport call
counter, `inact` whether `set_user_inactive` has already been called.  The
missing-file branch mirrors the source exactly: its `except Unauthorized`
has no `return`, so after flagging the identity inactive the loop continues
with the next reference. -/
def videoLoop (env : RenderEnv) (oc : Nat → Outcome) (kb : Bool) (total : Nat) :
    List Nat → Nat → Nat → Bool → PhaseRes
  | [], _, _, inact => ⟨[], inact, false⟩
  | n :: rest, i, k, inact =>
    let attach := kb && decide (i = total - 1)
    match env.fileId n with
    | some fid =>
      let op := Op.videoCached fid attach
      match oc k with
      | .ok =>
        let r := videoLoop env oc kb total rest (i + 1) (k + 1) inact
        ⟨op :: r.ops, r.inactive, r.halted⟩
      | .unreachable => ⟨[op], true, true⟩
      | .failed =>
        let op2 := Op.noticeFail n attach
        match oc (k + 1) with
        | .ok =>
          let r := videoLoop env oc kb total rest (i + 1) (k + 2) inact
          ⟨op :: op2 :: r.ops, r.inactive, r.halted⟩
        | .unreachable => ⟨[op, op2], true, true⟩
        | .failed => ⟨[op, op2], inact, true⟩
    | none =>
      if env.pathExists n then
        let op := Op.videoFile n attach
        match oc k with
        | .ok =>
          let r := videoLoop env oc kb total rest (i + 1) (k + 1) inact
          ⟨op :: r.ops, r.inactive, r.halted⟩
        | .unreachable => ⟨[op], true, true⟩
        | .failed =>
          let op2 := Op.noticeFail n attach
          match oc (k + 1) with
          | .ok =>
            let r := videoLoop env oc kb total rest (i + 1) (k + 2) inact
            ⟨op :: op2 :: r.ops, r.inactive, r.halted⟩
          | .unreachable => ⟨[op, op2], true, true⟩
          | .failed => ⟨[op, op2], inact, true⟩
      else
        let op := Op.noticeMissing n attach
        match oc k with
        | .ok =>
          let r := videoLoop env oc kb total rest (i + 1) (k + 1) inact
          ⟨op :: r.ops, r.inactive, r.halted⟩
        | .unreachable =>
          let r := videoLoop env oc kb total rest (i + 1) (k + 1) true
          ⟨op :: r.ops, r.inactive, r.halted⟩
        | .failed => ⟨[op], inact, true⟩

/-- The whole of `send_step`: text phase, media phase, then the empty-step
notice when the step has neither text nor media. -/
def sendStepModel (env : RenderEnv) (oc : Nat → Outcome) (step : Step) : PhaseRes :=
  let kb := hasBtn step
  let hasV := !step.videos.isEmpty
  let t : PhaseRes :=
    if step.text.isEmpty then ⟨[], false, false⟩
    else
      let chunks := splitText (boldFirstLine step.text) 3500
      textLoop oc kb hasV chunks.length chunks 0
  if t.halted then t
  else
    let v := videoLoop env oc kb step.videos.length step.videos 0 t.ops.length t.inactive
    let tv : PhaseRes := ⟨t.ops ++ v.ops, v.inactive, v.halted⟩
    if tv.halted then tv
    else if step.text.isEmpty && step.videos.isEmpty then
      let op := Op.noticeEmpty kb
      match oc tv.ops.length with
      | .ok => ⟨tv.ops ++ [op], tv.inactive, false⟩
      | .unreachable => ⟨tv.ops ++ [op], true, true⟩
      | .failed => ⟨tv.ops ++ [op], tv.inactive, true⟩
    else tv

/-- Whether the confirmation control is attached to the call. -/
def opHasKb : Op → Bool
  | .msg _ kb => kb
  | .videoCached _ kb => kb
  | .videoFile _ kb => kb
  | .noticeFail _ kb => kb
  | .noticeMissing _ kb => kb
  | .noticeEmpty kb => kb

/-- Whether the call is the missing-file notice. -/
def isMissingNoticeOp : Op → Bool
  | .noticeMissing _ _ => true
  | _ => false

/-- The delivery variant chosen for one media reference when its send
succeeds: the cached reference when the map knows one, otherwise the local
file when it exists, otherwise the missing-file notice. -/
def mediaVariant (env : RenderEnv) (n : Nat) (attach : Bool) : Op :=
  match env.fileId n with
  | some fid => Op.videoCached fid attach
  | none => if env.pathExists n then Op.videoFile n attach else Op.noticeMissing n attach

/-- The calls of the media loop when every send succeeds. -/
def videoOpsPure (env : RenderEnv) (kb : Bool) (total : Nat) : List Nat → Nat → List Op
  | [], _ => []
  | n :: rest, i =>
    mediaVariant env n (kb && decide (i = total - 1)) ::
      videoOpsPure env kb total rest (i + 1)

/-- The calls of the text loop when every send succeeds. -/
def textOpsPure (kb hasV : Bool) (total : Nat) : List (List Char) → Nat → List Op
  | [], _ => []
  | c :: rest, k =>
    Op.msg c (!hasV && kb && decide (k = total - 1)) ::
      textOpsPure kb hasV total rest (k + 1)

/-! Concrete data used by counterexamples and witnesses. -/

/-- An empty profile. -/
def exProfile : Profile := ⟨none, none, none, none⟩

/-- The label `Next` of the gated-step scenario. -/
def nextChars : List Char := ['N', 'e', 'x', 't']

/-- Step list of the C1 scenario: step 0 gated with label `Next`,
steps 1 and 2 ungated. -/
def c1Steps : List Step :=
  [⟨['a'], some nextChars, []⟩, ⟨['b'], none, []⟩, ⟨['c'], none, []⟩]

/-- A row whose identity is gated at step 0. -/
def c1Row : UserRow := ⟨none, none, none, none, true, some 0, none⟩

/-- State of an identity gated at step 0. -/
def c1State : BotState := ⟨some c1Row, some 0⟩

/-! Theorems settling the claims. -/

/-- Claim C1, counterexample: with the stored cursor gated at step 0, whose
confirmation label is `Next`, the incoming free-text message `Next` (already
trimmed, an exact whole-string match of the label) leaves the whole state
unchanged and the persisted index stays 0, while the claim requires the
advance to render steps 1 and 2 and persist `lastStepIndex = 3`. -/
theorem c1_confirm_text_ignored_cex :
    handleTextOp c1State nextChars = c1State ∧
    lastOf (handleTextOp c1State nextChars) = 0 ∧
    lastOf (handleTextOp c1State nextChars) ≠ 3 := by
  refine ⟨rfl, rfl, by decide⟩

/-- Claim C1 (amended): every incoming free-text message is silently ignored
with no state change, whatever its content and wherever the stored cursor
points; gated steps advance only through the inline-control callback. -/
theorem c1_amended_text_is_noop (st : BotState) (msg : List Char)
    (steps : List Step) (now : Nat) :
    handleTextOp st msg = st ∧ applySig steps now st (.sigText msg) = st :=
  ⟨rfl, rfl⟩

/-- Step list with a single gated step, used by the C2 counterexample. -/
def c2Steps : List Step := [⟨['a'], some ['G', 'o'], []⟩]

/-- A row that has already completed the single-step course. -/
def c2Row : UserRow := ⟨none, none, none, none, true, some 1, some 0⟩

/-- State of an identity that has completed the course. -/
def c2State : BotState := ⟨some c2Row, none⟩

/-- Claim C2, counterexample: a `Start` signal (not a `Reset`) rewinds the
persisted `lastStepIndex` of a completed identity from 1 back to 0, so the
index does decrease under a Start/Confirm/CallbackResume sequence. -/
theorem c2_start_rewinds_cex :
    lastOf c2State = 1 ∧
    lastOf (applySig c2Steps 7 c2State (.sigStart exProfile)) = 0 := by
  exact ⟨rfl, rfl⟩

/-- A row with a recorded completion time, used by the C4 counterexample. -/
def c4Row : UserRow := ⟨none, none, none, none, true, some 3, some 5⟩

/-- Claim C4, counterexample: a later progress write with the completed flag
set replaces an already-recorded `completed_at` value 5 with the new
timestamp 9, so the field is not write-once. -/
theorem c4_completed_at_refreshed_cex :
    c4Row.completedAt = some 5 ∧
    ((updateUserProgress 9 3 true (some c4Row)).bind UserRow.completedAt) = some 9 := by
  exact ⟨rfl, rfl⟩

/-- Claim C4 (amended): a progress write with `completed = false` never
changes `completed_at` (in particular it never clears it once set), a write
with `completed = true` always overwrites it with the current timestamp
(refreshing it when completion is reached again), and a write against an
absent row is a no-op. -/
theorem c4_amended_completed_at_never_cleared (now lastStep : Nat) (r : UserRow) :
    ((updateUserProgress now lastStep false (some r)).bind UserRow.completedAt)
      = r.completedAt ∧
    ((updateUserProgress now lastStep true (some r)).bind UserRow.completedAt)
      = some now ∧
    updateUserProgress now lastStep false none = none := by
  exact ⟨rfl, rfl, rfl⟩

/-- The step of the C5 failing input: no text, two media references. -/
def c5Step : Step := ⟨[], none, [1, 2]⟩

/-- Environment of the C5 failing input: no cached reference and no local
file for any media id. -/
def c5Env : RenderEnv := ⟨fun _ => none, fun _ => false⟩

/-- Oracle of the C5 failing input: the first transport call reports the
identity unreachable, everything after succeeds. -/
def c5Oracle : Nat → Outcome := fun k => if k = 0 then .unreachable else .ok

/-- Claim C5, evaluation at the failing input: the missing-file notice for
video 1 is answered with the definitive unreachable signal; the identity is
flagged inactive, but the render call does not abort — the missing-file
notice for video 2 is still attempted (the `except Unauthorized` of that
branch has no `return`), contradicting the claim that every remaining send
operation is skipped. -/
theorem c5_unreachable_missing_notice_continues :
    c5Oracle 0 = .unreachable ∧
    sendStepModel c5Env c5Oracle c5Step =
      ⟨[Op.noticeMissing 1 false, Op.noticeMissing 2 false], true, false⟩ := by
  exact ⟨rfl, rfl⟩

/-- Helper: an upsert always leaves a row with the active flag set. -/
theorem upsertUser_isActive (p : Profile) (r : Option UserRow) :
    (upsertUser p r).map UserRow.isActive = some true := by
  cases r <;> rfl

/-- Helper: a progress write does not touch the active flag. -/
theorem updateUserProgress_isActive (now k : Nat) (c : Bool) (r : Option UserRow) :
    (updateUserProgress now k c r).map UserRow.isActive = r.map UserRow.isActive := by
  cases r <;> rfl

/-- Claim C9: each of the four upserting handlers — start, reset, a callback
tap, and a media message — leaves the identity's row present with
`is_active = 1`, whatever the previous state was; in particular an identity
flagged inactive by an unreachable delivery is reactivated by its next such
interaction. -/
theorem c9_upsert_reactivates (steps : List Step) (now : Nat) (p : Profile)
    (data : List Char) (st : BotState) :
    ((startOp steps now p st).1.row.map UserRow.isActive = some true) ∧
    ((resetOp steps now p st).1.row.map UserRow.isActive = some true) ∧
    ((handleCallback steps now p data st).1.row.map UserRow.isActive = some true) ∧
    ((handleMediaOp p st).row.map UserRow.isActive = some true) := by
  refine ⟨?_, ?_, ?_, ?_⟩
  · simp [startOp, applySendFromIndex, updateUserProgress_isActive, upsertUser_isActive]
  · simp [resetOp, startOp, applySendFromIndex, updateUserProgress_isActive,
      upsertUser_isActive]
  · cases hp : parseCb data with
    | some k =>
      simp [handleCallback, hp, applySendFromIndex, updateUserProgress_isActive,
        upsertUser_isActive]
    | none => simp [handleCallback, hp, upsertUser_isActive]
  · simp [handleMediaOp, upsertUser_isActive]

/-- The input of the C6 counterexample: `aaa`, two blank-line separators in
a row (an empty middle paragraph), then `b`. -/
def c6Text : List Char := ['a', 'a', 'a', '\n', '\n', '\n', '\n', 'b']

/-- Claim C6, counterexample: no paragraph of the input exceeds the limit 3,
yet rejoining the returned parts with the blank-line separator loses the
empty middle paragraph and does not reconstruct the input. -/
theorem c6_empty_paragraph_cex :
    (∀ p ∈ splitOnNl2 c6Text, p.length ≤ 3) ∧
    List.intercalate nl2 (splitText c6Text 3) ≠ c6Text := by
  exact ⟨by decide, by decide⟩

/-- The chunk of the C8 counterexample: the marker-removal residue of
`[[video 1]video 2]` is itself a video marker. -/
def c8Chunk : List Char :=
  ['[', '[', 'v', 'i', 'd', 'e', 'o', ' ', '1', ']',
   'v', 'i', 'd', 'e', 'o', ' ', '2', ']']

/-- Claim C8, counterexample: after parsing the chunk `[[video 1]video 2]`
the rendered text is `[video 2]` — removing the marker `[video 1]` glues the
surrounding characters into a new marker — so an emitted text chunk of the
step still contains an inline video marker. -/
theorem c8_marker_residue_cex :
    (splitText (boldFirstLine (cleanChunkText c8Chunk)) 3500).any hasMarker = true := by
  decide

/-- Helper: full characterisation of the `send_from_index` walk on a list
suffix.  Starting at position `idx` over the remaining steps `l`: every
rendered index is at least `idx`; when the walk stops at `some i`, `i` is
the position of the first gated remaining step and the rendered indices are
`idx, …, i`; when it returns `none`, no remaining step is gated and every
remaining index was rendered. -/
theorem walkFrom_spec (l : List Step) (idx : Nat) :
    (∀ j ∈ (walkFrom l idx).1, idx ≤ j) ∧
    (∀ i, (walkFrom l idx).2 = some i →
      idx ≤ i ∧ i - idx < l.length ∧
      (∃ s, l[i - idx]? = some s ∧ hasBtn s = true) ∧
      (∀ t, t < i - idx → ∀ s, l[t]? = some s → hasBtn s = false) ∧
      (walkFrom l idx).1 = List.range' idx (i + 1 - idx)) ∧
    ((walkFrom l idx).2 = none →
      (∀ t, t < l.length → ∀ s, l[t]? = some s → hasBtn s = false) ∧
      (walkFrom l idx).1 = List.range' idx l.length) := by
  induction l generalizing idx with
  | nil =>
    refine ⟨?_, ?_, ?_⟩
    · intro j hj; simp [walkFrom] at hj
    · intro i hi; simp [walkFrom] at hi
    · intro _
      exact ⟨fun t ht => by simp at ht, by simp [walkFrom]⟩
  | cons s rest ih =>
    by_cases hb : hasBtn s = true
    · have hw : walkFrom (s :: rest) idx = ([idx], some idx) := by
        simp [walkFrom, hb]
      refine ⟨?_, ?_, ?_⟩
      · intro j hj; rw [hw] at hj; simp at hj; omega
      · intro i hi
        rw [hw] at hi
        simp at hi
        subst hi
        refine ⟨le_refl _, by simp, ⟨s, by simp, hb⟩, ?_, ?_⟩
        · intro t ht; omega
        · rw [hw]; simp
      · intro hn; rw [hw] at hn; simp at hn
    · have hb' : hasBtn s = false := by
        cases h : hasBtn s
        · rfl
        · exact absurd h hb
      have hw : walkFrom (s :: rest) idx
          = (idx :: (walkFrom rest (idx + 1)).1, (walkFrom rest (idx + 1)).2) := by
        simp [walkFrom, hb']
      obtain ⟨ih1, ih2, ih3⟩ := ih (idx + 1)
      refine ⟨?_, ?_, ?_⟩
      · intro j hj
        rw [hw] at hj
        simp at hj
        rcases hj with hj | hj
        · omega
        · have := ih1 j hj; omega
      · intro i hi
        rw [hw] at hi
        simp at hi
        obtain ⟨hle, hlt, ⟨s', hs', hbs'⟩, hfst, hops⟩ := ih2 i hi
        have hidx : idx ≤ i := by omega
        have hsub : i - idx = (i - (idx + 1)) + 1 := by omega
        refine ⟨hidx, by simp; omega, ?_, ?_, ?_⟩
        · refine ⟨s', ?_, hbs'⟩
          rw [hsub]
          simpa using hs'
        · intro t ht s0 hs0
          cases t with
          | zero =>
            simp at hs0
            rw [← hs0]; exact hb'
          | succ t' =>
            simp at hs0
            exact hfst t' (by omega) s0 hs0
        · rw [hw]
          simp only []
          rw [hops]
          have harith : i + 1 - idx = (i + 1 - (idx + 1)) + 1 := by omega
          rw [harith, List.range'_succ]
      · intro hn
        rw [hw] at hn
        simp at hn
        obtain ⟨hfst, hops⟩ := ih3 hn
        refine ⟨?_, ?_⟩
        · intro t ht s0 hs0
          cases t with
          | zero =>
            simp at hs0
            rw [← hs0]; exact hb'
          | succ t' =>
            simp at hs0
            exact hfst t' (by simp at ht; omega) s0 hs0
        · rw [hw]
          simp only [List.length_cons]
          rw [hops, List.range'_succ]

/-- Claim C3: the walk of `send_from_index` starting at `fromIdx` never
renders an index below `fromIdx`; when it stops without completion it stops
on a gated step that is the first gated step at or after `fromIdx`, persists
exactly that index, and has rendered every index from `fromIdx` up to and
including the stop; when it completes it persists `len(steps)` with the
completed flag, no gated step remained at or after `fromIdx`, and it
rendered every index from `fromIdx` to the end.  The persisted value is the
one written into the row by the surrounding state update. -/
theorem c3_advance_stops_at_first_gated (steps : List Step) (f : Nat) :
    (∀ j ∈ (sendFromIndexPure steps f).1, f ≤ j) ∧
    ((sendFromIndexPure steps f).2.2 = false →
      (sendFromIndexPure steps f).2.1 < steps.length ∧
      f ≤ (sendFromIndexPure steps f).2.1 ∧
      isGatedAt steps (sendFromIndexPure steps f).2.1 = true ∧
      (∀ j, f ≤ j → j < (sendFromIndexPure steps f).2.1 → isGatedAt steps j = false) ∧
      (sendFromIndexPure steps f).1
        = List.range' f ((sendFromIndexPure steps f).2.1 + 1 - f)) ∧
    ((sendFromIndexPure steps f).2.2 = true →
      (sendFromIndexPure steps f).2.1 = steps.length ∧
      (∀ j, f ≤ j → j < steps.length → isGatedAt steps j = false) ∧
      (sendFromIndexPure steps f).1 = List.range' f (steps.length - f)) ∧
    (∀ (now : Nat) (st : BotState), st.row.isSome = true →
      ((applySendFromIndex steps now f st).1.row.bind UserRow.lastStep)
        = some (sendFromIndexPure steps f).2.1) := by
  have hpersist : ∀ (now : Nat) (st : BotState), st.row.isSome = true →
      ((applySendFromIndex steps now f st).1.row.bind UserRow.lastStep)
        = some (sendFromIndexPure steps f).2.1 := by
    intro now st hst
    cases hr : st.row with
    | none => rw [hr] at hst; simp at hst
    | some r => simp [applySendFromIndex, hr, updateUserProgress]
  obtain ⟨w1, w2, w3⟩ := walkFrom_spec (List.drop f steps) f
  rcases hW : walkFrom (List.drop f steps) f with ⟨r, io⟩
  rw [hW] at w1 w2 w3
  cases io with
  | some i =>
    have hs : sendFromIndexPure steps f = (r, i, false) := by
      simp [sendFromIndexPure, hW]
    obtain ⟨hle, hlt, ⟨s, hsg, hbs⟩, hfst, hops⟩ := w2 i rfl
    rw [List.length_drop] at hlt
    have hif : i < steps.length := by omega
    refine ⟨?_, ?_, ?_, hpersist⟩
    · intro j hj; rw [hs] at hj; exact w1 j hj
    · intro _
      rw [hs]
      refine ⟨hif, hle, ?_, ?_, ?_⟩
      · have hgi : steps[i]? = some s := by
          rw [List.getElem?_drop] at hsg
          rwa [show f + (i - f) = i by omega] at hsg
        simp [isGatedAt, hgi, hbs]
      · intro j hfj hji
        have hji2 : j < i := hji
        cases hsj : steps[j]? with
        | none => simp [isGatedAt, hsj]
        | some s0 =>
          have hd : (List.drop f steps)[j - f]? = steps[j]? := by
            rw [List.getElem?_drop, show f + (j - f) = j by omega]
          have := hfst (j - f) (by omega) s0 (by rw [hd]; exact hsj)
          simp [isGatedAt, hsj, this]
      · exact hops
    · intro hcon
      rw [hs] at hcon
      simp at hcon
  | none =>
    have hs : sendFromIndexPure steps f = (r, steps.length, true) := by
      simp [sendFromIndexPure, hW]
    obtain ⟨hfst, hops⟩ := w3 rfl
    refine ⟨?_, ?_, ?_, hpersist⟩
    · intro j hj; rw [hs] at hj; exact w1 j hj
    · intro hcon; rw [hs] at hcon; simp at hcon
    · intro _
      rw [hs]
      refine ⟨rfl, ?_, ?_⟩
      · intro j hfj hjl
        cases hsj : steps[j]? with
        | none => simp [isGatedAt, hsj]
        | some s0 =>
          have hd : (List.drop f steps)[j - f]? = steps[j]? := by
            rw [List.getElem?_drop, show f + (j - f) = j by omega]
          have := hfst (j - f) (by rw [List.length_drop]; omega) s0 (by rw [hd]; exact hsj)
          simp [isGatedAt, hsj, this]
      · rw [hops, List.length_drop]

/-- Steps used by the C3 witness: step 1 is the first gated step. -/
def c3Steps : List Step :=
  [⟨['a'], none, []⟩, ⟨['b'], some ['G', 'o'], []⟩, ⟨['c'], none, []⟩]

/-- A row used by the C3 witness. -/
def c3Row : UserRow := ⟨none, none, none, none, false, some 0, none⟩

/-- Witness for claim C3 at a concrete input: starting from 0 over the list
whose first gated step is step 1, the walk renders steps 0 and 1, stops on
the gated step, and the row receives `last_step = 1`. -/
theorem c3_advance_witness :
    (sendFromIndexPure c3Steps 0).1 = [0, 1] ∧
    isGatedAt c3Steps (sendFromIndexPure c3Steps 0).2.1 = true ∧
    ((applySendFromIndex c3Steps 9 0 ⟨some c3Row, none⟩).1.row.bind UserRow.lastStep)
      = some 1 := by
  have h := c3_advance_stops_at_first_gated c3Steps 0
  have hg := h.2.1 (by decide)
  refine ⟨?_, hg.2.2.1, ?_⟩
  · rw [hg.2.2.2.2]; decide
  · exact (h.2.2.2 9 ⟨some c3Row, none⟩ (by decide)).trans (by decide)

/-- Helper: the persisted index of a walk never exceeds the step count. -/
theorem sendFromIndexPure_le (steps : List Step) (f : Nat) :
    (sendFromIndexPure steps f).2.1 ≤ steps.length := by
  obtain ⟨_, w2, _⟩ := walkFrom_spec (List.drop f steps) f
  rcases hW : walkFrom (List.drop f steps) f with ⟨r, io⟩
  rw [hW] at w2
  cases io with
  | some i =>
    obtain ⟨hle, hlt, _⟩ := w2 i rfl
    rw [List.length_drop] at hlt
    simp only [sendFromIndexPure, hW]
    omega
  | none => simp [sendFromIndexPure, hW]

/-- Helper: a walk started at or before the end never persists an index
below its starting point. -/
theorem sendFromIndexPure_ge (steps : List Step) (f : Nat) (hf : f ≤ steps.length) :
    f ≤ (sendFromIndexPure steps f).2.1 := by
  obtain ⟨_, w2, _⟩ := walkFrom_spec (List.drop f steps) f
  rcases hW : walkFrom (List.drop f steps) f with ⟨r, io⟩
  rw [hW] at w2
  cases io with
  | some i =>
    obtain ⟨hle, _⟩ := w2 i rfl
    simp only [sendFromIndexPure, hW]
    exact hle
  | none =>
    simp only [sendFromIndexPure, hW]
    exact hf

/-- Helper: the walk-and-persist step sets `last_step` to the walk result
when the row exists. -/
theorem lastOf_applySendFromIndex_some (steps : List Step) (now f : Nat)
    (st : BotState) (r : UserRow) (hr : st.row = some r) :
    lastOf (applySendFromIndex steps now f st).1 = (sendFromIndexPure steps f).2.1 := by
  simp [applySendFromIndex, lastOf, hr, updateUserProgress]

/-- Helper: one fresh signal (a text message, or a callback not targeting a
point behind the stored cursor) never lowers the persisted index and keeps
it at most the step count. -/
theorem applySigI_fresh_mono (steps : List Step) (now : Nat) (st : BotState)
    (sig : SigI) (hf : freshSigI st sig) (hle : lastOf st ≤ steps.length) :
    lastOf st ≤ lastOf (applySigI steps now st sig) ∧
    lastOf (applySigI steps now st sig) ≤ steps.length := by
  cases sig with
  | sigStart p => exact hf.elim
  | sigReset p => exact hf.elim
  | sigText m => exact ⟨le_refl _, hle⟩
  | sigCb p k? =>
    cases k? with
    | none =>
      have he : applySigI steps now st (.sigCb p none)
          = ⟨upsertUser p st.row, st.cursor⟩ := by
        simp [applySigI, handleCallbackK]
      have hl : lastOf ⟨upsertUser p st.row, st.cursor⟩ = lastOf st := by
        cases hst : st.row <;> simp [lastOf, hst, upsertUser]
      rw [he, hl]
      exact ⟨le_refl _, hle⟩
    | some k =>
      have hk : (lastOf st : Int) ≤ k + 1 := hf k rfl
      have hkn : lastOf st ≤ (k + 1).toNat := by omega
      have he : applySigI steps now st (.sigCb p (some k))
          = (applySendFromIndex steps now (k + 1).toNat
              ⟨upsertUser p st.row, st.cursor⟩).1 := by
        simp [applySigI, handleCallbackK]
      have hrow : ∃ r, upsertUser p st.row = some r := by
        cases st.row <;> exact ⟨_, rfl⟩
      obtain ⟨r, hr⟩ := hrow
      rw [he, lastOf_applySendFromIndex_some steps now ((k + 1).toNat) _ r hr]
      have h1 := sendFromIndexPure_le steps (k + 1).toNat
      by_cases hklen : (k + 1).toNat ≤ steps.length
      · have h2 := sendFromIndexPure_ge steps (k + 1).toNat hklen
        exact ⟨by omega, h1⟩
      · have hdrop : List.drop (k + 1).toNat steps = [] := by
          apply List.drop_eq_nil_of_le; omega
        have hlen : (sendFromIndexPure steps (k + 1).toNat).2.1 = steps.length := by
          simp [sendFromIndexPure, hdrop, walkFrom]
        rw [hlen]
        exact ⟨hle, le_refl _⟩

/-- Helper: on the canonical payloads the bot itself attaches to its inline
controls, the raw-payload handler and the parsed-interface handler agree. -/
theorem handleCallback_agrees_parsed (steps : List Step) (now : Nat) (p : Profile)
    (data : List Char) (st : BotState) (k : Nat) (hk : parseCb data = some k) :
    handleCallback steps now p data st
      = handleCallbackK steps now p (some (k : Int)) st := by
  have ht : ((k : Int) + 1).toNat = k + 1 := by omega
  simp [handleCallback, handleCallbackK, hk, ht]

/-- Claim C2 (amended): over any sequence made of free-text Confirm signals
and CallbackResume signals — each callback carrying the outcome of the
source's payload guard, `none` when `int()` rejects the payload and the
parsed integer `k` otherwise, whatever spelling (whitespace, sign,
underscores, non-ASCII digits) the payload used — in which every parsed
target satisfies `k + 1 ≥` the currently stored index, the persisted
`lastStepIndex` never decreases and stays at most `len(StepList)`.  Start
and Reset both rerun the walk from step 0 and can lower the stored index,
and a stale callback with `k + 1 <` the stored index can lower it as well,
so they are excluded from the monotone fragment. -/
theorem c2_amended_monotone_fresh_signals (steps : List Step)
    (sigs : List (Nat × SigI)) (st : BotState)
    (hle : lastOf st ≤ steps.length) (hfr : FreshTraceI steps st sigs) :
    lastOf st ≤ lastOf (runSigsI steps sigs st) ∧
    lastOf (runSigsI steps sigs st) ≤ steps.length := by
  induction sigs generalizing st with
  | nil => exact ⟨le_refl _, hle⟩
  | cons hd tl ih =>
    obtain ⟨n, sig⟩ := hd
    obtain ⟨h1, h2⟩ := hfr
    have hstep := applySigI_fresh_mono steps n st sig h1 hle
    have hrest := ih (applySigI steps n st sig) hstep.2 h2
    exact ⟨le_trans hstep.1 hrest.1, hrest.2⟩

/-- Witness for claim C2 (amended) at a concrete input: one fresh parsed
callback with target 0 over the one-step list, starting from an absent
row. -/
theorem c2_amended_monotone_witness :
    lastOf (⟨none, none⟩ : BotState)
        ≤ lastOf (runSigsI c2Steps [(3, .sigCb exProfile (some 0))] ⟨none, none⟩) ∧
    lastOf (runSigsI c2Steps [(3, .sigCb exProfile (some 0))] ⟨none, none⟩)
        ≤ c2Steps.length := by
  refine c2_amended_monotone_fresh_signals c2Steps [(3, .sigCb exProfile (some 0))]
    ⟨none, none⟩ (by decide) ?_
  refine ⟨fun k hk => ?_, trivial⟩
  rw [← Option.some.inj hk]
  decide

/-- Claim C10: a callback payload `step:k` with `k + 1 ≥ len(StepList)`
renders nothing and persists `last_step = len(StepList)` with the completed
flag set, writing the current timestamp into `completed_at`, whatever the
previously stored cursor was. -/
theorem c10_callback_overshoot_completes (steps : List Step) (now : Nat) (p : Profile)
    (data : List Char) (st : BotState) (k : Nat)
    (hk : parseCb data = some k) (hN : steps.length ≤ k + 1) :
    (handleCallback steps now p data st).2 = [] ∧
    ((handleCallback steps now p data st).1.row.bind UserRow.lastStep)
      = some steps.length ∧
    ((handleCallback steps now p data st).1.row.bind UserRow.completedAt)
      = some now := by
  have hdrop : List.drop (k + 1) steps = [] := List.drop_eq_nil_of_le hN
  have hs : sendFromIndexPure steps (k + 1) = ([], steps.length, true) := by
    simp [sendFromIndexPure, hdrop, walkFrom]
  have hrow : ∃ r, upsertUser p st.row = some r := by
    cases st.row <;> exact ⟨_, rfl⟩
  obtain ⟨r, hr⟩ := hrow
  refine ⟨?_, ?_, ?_⟩ <;>
    simp [handleCallback, hk, applySendFromIndex, hs, hr, updateUserProgress]

/-- Steps used by the C10 witness: two ungated steps. -/
def c10Steps : List Step := [⟨['a'], none, []⟩, ⟨['b'], none, []⟩]

/-- Callback payload `step:5` used by the C10 witness. -/
def c10Data : List Char := ['s', 't', 'e', 'p', ':', '5']

/-- Witness for claim C10 at a concrete input: payload `step:5` against the
two-step list renders nothing and completes at index 2 with timestamp 4. -/
theorem c10_callback_overshoot_witness :
    (handleCallback c10Steps 4 exProfile c10Data ⟨none, none⟩).2 = [] ∧
    ((handleCallback c10Steps 4 exProfile c10Data ⟨none, none⟩).1.row.bind
        UserRow.lastStep) = some 2 ∧
    ((handleCallback c10Steps 4 exProfile c10Data ⟨none, none⟩).1.row.bind
        UserRow.completedAt) = some 4 := by
  have h := c10_callback_overshoot_completes c10Steps 4 exProfile c10Data ⟨none, none⟩ 5
    (by decide) (by decide)
  exact ⟨h.1, h.2.1, h.2.2⟩

/-- Helper: a non-nil list has a false `isEmpty`. -/
theorem isEmpty_false_of_ne_nil {α : Type} {l : List α} (h : l ≠ []) :
    l.isEmpty = false := by
  cases l with
  | nil => exact absurd rfl h
  | cons a as => rfl

/-- Helper: joining a one-element list is that element. -/
theorem intercalate_single (s a : List Char) : List.intercalate s [a] = a := by
  simp [List.intercalate]

/-- Helper: joining a list of at least two pieces peels off the head and one
separator. -/
theorem intercalate_two (s a b : List Char) (l : List (List Char)) :
    List.intercalate s (a :: b :: l) = a ++ s ++ List.intercalate s (b :: l) := by
  simp [List.intercalate, List.intersperse]

/-- Helper: peeling the head off a join of a non-empty tail. -/
theorem intercalate_ne_nil_cons (s a : List Char) (l : List (List Char)) (h : l ≠ []) :
    List.intercalate s (a :: l) = a ++ s ++ List.intercalate s l := by
  cases l with
  | nil => exact absurd rfl h
  | cons b bs => exact intercalate_two s a b bs

/-- Helper: a head that already carries one separator absorbs it back into
the join. -/
theorem intercalate_merge (s a b : List Char) (l : List (List Char)) :
    List.intercalate s ((a ++ s ++ b) :: l) = a ++ s ++ List.intercalate s (b :: l) := by
  cases l with
  | nil => simp [intercalate_single]
  | cons x xs => simp [intercalate_two, List.append_assoc]

/-- Helper: the paragraph split never returns an empty list of pieces. -/
theorem splitOnNl2_ne_nil (l : List Char) : splitOnNl2 l ≠ [] := by
  induction l using splitOnNl2.induct with
  | case1 => simp [splitOnNl2.eq_1]
  | case2 rest ih => simp [splitOnNl2.eq_2]
  | case3 c rest hne p ps hsplit ih =>
    rw [splitOnNl2.eq_3 c rest hne, hsplit]
    simp
  | case4 c rest hne hsplit ih => exact absurd hsplit ih

/-- Helper: rejoining the paragraph split with the separator reconstructs
the text exactly. -/
theorem intercalate_splitOnNl2 (l : List Char) :
    List.intercalate nl2 (splitOnNl2 l) = l := by
  induction l using splitOnNl2.induct with
  | case1 => simp [splitOnNl2.eq_1, intercalate_single]
  | case2 rest ih =>
    rw [splitOnNl2.eq_2, intercalate_ne_nil_cons nl2 [] _ (splitOnNl2_ne_nil rest), ih]
    rfl
  | case3 c rest hne p ps hsplit ih =>
    rw [splitOnNl2.eq_3 c rest hne, hsplit]
    rw [hsplit] at ih
    cases ps with
    | nil =>
      rw [intercalate_single] at ih
      rw [intercalate_single, ih]
    | cons q qs =>
      rw [intercalate_two] at ih
      rw [intercalate_two]
      simp only [List.cons_append, List.append_assoc] at ih ⊢
      rw [ih]
  | case4 c rest hne hsplit ih => exact absurd hsplit (splitOnNl2_ne_nil rest)

/-- Helper: the greedy loop never returns an empty part list when its
current accumulator and all paragraphs are non-empty. -/
theorem splitTextLoop_ne_nil (maxLen : Nat) :
    ∀ (paras : List (List Char)) (cur : List Char), cur ≠ [] →
      (∀ p ∈ paras, p ≠ []) → splitTextLoop maxLen paras cur ≠ [] := by
  intro paras
  induction paras with
  | nil =>
    intro cur hc _
    simp [splitTextLoop, isEmpty_false_of_ne_nil hc]
  | cons p ps ih =>
    intro cur hc hp
    have hpnn : p ≠ [] := hp p (List.mem_cons_self p ps)
    have hps : ∀ q ∈ ps, q ≠ [] := fun q hq => hp q (List.mem_cons_of_mem _ hq)
    rw [splitTextLoop]
    simp only [isEmpty_false_of_ne_nil hc, Bool.false_eq_true, if_false]
    by_cases hfit : cur.length + 2 + p.length ≤ maxLen
    · rw [if_pos hfit]
      have hcur2 : cur ++ nl2 ++ p ≠ [] := by
        cases cur with
        | nil => exact absurd rfl hc
        | cons a as => simp
      exact ih (cur ++ nl2 ++ p) hcur2 hps
    · rw [if_neg hfit]
      simp

/-- Helper: the greedy loop only regroups its input; joined with the
separator, its parts reconstruct the accumulator and pending paragraphs. -/
theorem splitTextLoop_join (maxLen : Nat) :
    ∀ (paras : List (List Char)) (cur : List Char), cur ≠ [] →
      (∀ p ∈ paras, p ≠ []) →
      List.intercalate nl2 (splitTextLoop maxLen paras cur)
        = List.intercalate nl2 (cur :: paras) := by
  intro paras
  induction paras with
  | nil =>
    intro cur hc _
    simp [splitTextLoop, isEmpty_false_of_ne_nil hc]
  | cons p ps ih =>
    intro cur hc hp
    have hpnn : p ≠ [] := hp p (List.mem_cons_self p ps)
    have hps : ∀ q ∈ ps, q ≠ [] := fun q hq => hp q (List.mem_cons_of_mem _ hq)
    rw [splitTextLoop]
    simp only [isEmpty_false_of_ne_nil hc, Bool.false_eq_true, if_false]
    by_cases hfit : cur.length + 2 + p.length ≤ maxLen
    · rw [if_pos hfit]
      have hcur2 : cur ++ nl2 ++ p ≠ [] := by
        cases cur with
        | nil => exact absurd rfl hc
        | cons a as => simp
      rw [ih (cur ++ nl2 ++ p) hcur2 hps, intercalate_merge nl2 cur p ps]
      exact (intercalate_two nl2 cur p ps).symm
    · rw [if_neg hfit]
      rw [intercalate_ne_nil_cons nl2 cur _ (splitTextLoop_ne_nil maxLen ps p hpnn hps)]
      rw [ih p hpnn hps]
      exact (intercalate_two nl2 cur p ps).symm

/-- Helper: every part produced by the greedy loop respects the limit when
the accumulator and all paragraphs do. -/
theorem splitTextLoop_short (maxLen : Nat) :
    ∀ (paras : List (List Char)) (cur : List Char), cur.length ≤ maxLen →
      (∀ p ∈ paras, p.length ≤ maxLen) →
      ∀ q ∈ splitTextLoop maxLen paras cur, q.length ≤ maxLen := by
  intro paras
  induction paras with
  | nil =>
    intro cur hc _ q hq
    by_cases hce : cur.isEmpty
    · simp [splitTextLoop, hce] at hq
    · simp only [splitTextLoop, hce, Bool.false_eq_true, if_false,
        List.mem_singleton] at hq
      rw [hq]; exact hc
  | cons p ps ih =>
    intro cur hc hp q hq
    have hpl : p.length ≤ maxLen := hp p (List.mem_cons_self p ps)
    have hps : ∀ r ∈ ps, r.length ≤ maxLen := fun r hr => hp r (List.mem_cons_of_mem _ hr)
    by_cases hce : cur.isEmpty
    · rw [splitTextLoop] at hq
      simp only [hce, if_true] at hq
      exact ih p hpl hps q hq
    · rw [splitTextLoop] at hq
      simp only [hce, Bool.false_eq_true, if_false] at hq
      by_cases hfit : cur.length + 2 + p.length ≤ maxLen
      · rw [if_pos hfit] at hq
        have hlen2 : (cur ++ nl2 ++ p).length ≤ maxLen := by
          simp only [List.length_append, nl2]
          simpa using hfit
        exact ih (cur ++ nl2 ++ p) hlen2 hps q hq
      · rw [if_neg hfit] at hq
        rcases List.mem_cons.mp hq with h | h
        · rw [h]; exact hc
        · exact ih p hpl hps q h

/-- Helper: every slice of the fixed-window pass has length at most `n`. -/
theorem chunksOfAux_short (n : Nat) :
    ∀ (fuel : Nat) (l : List Char), ∀ q ∈ chunksOfAux n fuel l, q.length ≤ n := by
  intro fuel
  induction fuel with
  | zero => intro l q hq; simp [chunksOfAux] at hq
  | succ fuel ih =>
    intro l q hq
    cases l with
    | nil => simp [chunksOfAux] at hq
    | cons c cs =>
      rw [chunksOfAux] at hq
      · rcases List.mem_cons.mp hq with h | h
        · rw [h]
          exact List.length_take_le n (c :: cs)
        · exact ih _ q h
      · simp

/-- Helper: the final pass of the segmenter keeps already-short parts
untouched. -/
theorem flatMap_keep_short (maxLen : Nat) :
    ∀ (parts : List (List Char)), (∀ q ∈ parts, q.length ≤ maxLen) →
      (parts.flatMap fun part =>
        if part.length ≤ maxLen then [part] else chunksOf maxLen part) = parts := by
  intro parts
  induction parts with
  | nil => intro _; rfl
  | cons a as ih =>
    intro h
    have ha : a.length ≤ maxLen := h a (List.mem_cons_self a as)
    simp only [List.flatMap_cons, if_pos ha,
      ih (fun q hq => h q (List.mem_cons_of_mem _ hq))]
    rfl

/-- Claim C6 (amended): every part returned by the segmenter has length at
most `maxLen`; and when every blank-line-separated paragraph of the input is
non-empty and within `maxLen`, rejoining the returned parts with the
blank-line separator reconstructs the input exactly.  (An empty paragraph —
three or more consecutive newlines, or a leading/trailing separator — can
make the greedy loop drop a separator, which is the counterexample.) -/
theorem c6_amended_segment_bounds_and_rejoin :
    (∀ (text : List Char) (maxLen : Nat), ∀ q ∈ splitText text maxLen,
      q.length ≤ maxLen) ∧
    (∀ (text : List Char) (maxLen : Nat),
      (∀ p ∈ splitOnNl2 text, p ≠ [] ∧ p.length ≤ maxLen) →
      List.intercalate nl2 (splitText text maxLen) = text) := by
  constructor
  · intro text maxLen q hq
    rw [splitText] at hq
    by_cases hlen : text.length ≤ maxLen
    · rw [if_pos hlen] at hq
      simp only [List.mem_singleton] at hq
      rw [hq]; exact hlen
    · rw [if_neg hlen] at hq
      simp only [] at hq
      rcases List.mem_flatMap.mp hq with ⟨part, hpart, hqp⟩
      by_cases hp : part.length ≤ maxLen
      · rw [if_pos hp] at hqp
        simp only [List.mem_singleton] at hqp
        rw [hqp]; exact hp
      · rw [if_neg hp] at hqp
        exact chunksOfAux_short maxLen _ part q hqp
  · intro text maxLen hp
    rw [splitText]
    by_cases hlen : text.length ≤ maxLen
    · rw [if_pos hlen]
      exact intercalate_single nl2 text
    · rw [if_neg hlen]
      cases hsp : splitOnNl2 text with
      | nil => exact absurd hsp (splitOnNl2_ne_nil text)
      | cons p0 ps =>
        have hp0 := hp p0 (by rw [hsp]; exact List.mem_cons_self p0 ps)
        have hpsnn : ∀ q ∈ ps, q ≠ [] := fun q hq =>
          (hp q (by rw [hsp]; exact List.mem_cons_of_mem _ hq)).1
        have hpssh : ∀ q ∈ ps, q.length ≤ maxLen := fun q hq =>
          (hp q (by rw [hsp]; exact List.mem_cons_of_mem _ hq)).2
        have hloop : splitTextLoop maxLen (p0 :: ps) []
            = splitTextLoop maxLen ps p0 := by
          rw [splitTextLoop]
          rfl
        rw [hloop]
        rw [flatMap_keep_short maxLen _ (splitTextLoop_short maxLen ps p0 hp0.2 hpssh)]
        rw [splitTextLoop_join maxLen ps p0 hp0.1 hpsnn]
        rw [← hsp]
        exact intercalate_splitOnNl2 text

/-- The input of the C6 witness: two short paragraphs. -/
def c6wText : List Char := ['a', 'b', '\n', '\n', 'c', 'd']

/-- Witness for claim C6 (amended) at a concrete input: both paragraphs are
non-empty and within the limit 3, the parts rejoin to the input, and the
part `ab` respects the limit. -/
theorem c6_amended_segment_witness :
    List.intercalate nl2 (splitText c6wText 3) = c6wText ∧
    (['a', 'b'] : List Char).length ≤ 3 := by
  have h := c6_amended_segment_bounds_and_rejoin
  exact ⟨h.2 c6wText 3 (by decide), h.1 c6wText 3 ['a', 'b'] (by decide)⟩

/-- Helper: the marker scan leaves a marker-free line unchanged. -/
theorem stripMarkers_id :
    ∀ (fuel : Nat) (l : List Char), l.length ≤ fuel → hasMarker l = false →
      stripMarkers fuel l = l := by
  intro fuel
  induction fuel with
  | zero =>
    intro l hl hm
    rfl
  | succ fuel ih =>
    intro l hl hm
    cases l with
    | nil => rfl
    | cons c rest =>
      rw [hasMarker] at hm
      rcases Bool.or_eq_false_iff.mp hm with ⟨hm1, hm2⟩
      have hrest : stripMarkers fuel rest = rest := by
        apply ih rest _ hm2
        simp at hl
        omega
      by_cases hc : c = '['
      · have hmm : matchMarker rest = none := by
          rw [hc] at hm1
          simp at hm1
          cases hmk : matchMarker rest with
          | none => rfl
          | some t => rw [hmk] at hm1; simp at hm1
        rw [stripMarkers, if_pos hc, hmm, hrest]
      · rw [stripMarkers, if_neg hc, hrest]

/-- Helper: every line of the cleaned output is the marker-stripped image of
some input line that is not a confirmation-label line. -/
theorem cleanLines_mem (ls : List (List Char)) (l : List Char)
    (h : l ∈ cleanLines ls) :
    ∃ y, y ∈ ls ∧ isButtonLine y = false ∧ l = removeVideoMarkers y := by
  rw [cleanLines, dropBlankEnds] at h
  rw [List.mem_reverse] at h
  have h2 := (List.dropWhile_sublist blankLine).subset h
  rw [List.mem_reverse] at h2
  have h3 := (List.dropWhile_sublist blankLine).subset h2
  rcases List.mem_map.mp h3 with ⟨y, hy, hly⟩
  rcases List.mem_filter.mp hy with ⟨hyl, hyb⟩
  refine ⟨y, hyl, ?_, hly.symm⟩
  simpa using hyb

/-- Helper: the bold pass rewrites exactly the first non-blank line,
wrapping it in the emphasis tags. -/
theorem boldLines_first (pre post : List (List Char)) :
    ∀ (x : List Char), (∀ y ∈ pre, blankLine y = true) → blankLine x = false →
      boldLines (pre ++ x :: post) = pre ++ (bOpenChars ++ x ++ bCloseChars) :: post := by
  induction pre with
  | nil =>
    intro x _ hx
    simp [boldLines, hx]
  | cons y pre ih =>
    intro x hpre hx
    have hy : blankLine y = true := hpre y (List.mem_cons_self y pre)
    have := ih x (fun z hz => hpre z (List.mem_cons_of_mem _ hz)) hx
    simp [boldLines, hy, this]

/-- Claim C8 (amended): the rendered text has its first non-blank line
wrapped in the emphasis tags (blank lines before it and everything after it
are untouched); every line of the rendered text is the marker-stripped image
of an input line that is not a whole confirmation-label line; and the marker
scan deletes every occurrence it matches, leaving marker-free lines exactly
unchanged.  Removal residue, however, can itself spell a new video marker
(or a label-shaped line), so emitted chunks are not guaranteed marker-free —
that is the counterexample. -/
theorem c8_amended_clean_and_bold :
    (∀ (pre post : List (List Char)) (x : List Char),
      (∀ y ∈ pre, blankLine y = true) → blankLine x = false →
      boldLines (pre ++ x :: post)
        = pre ++ (bOpenChars ++ x ++ bCloseChars) :: post) ∧
    (∀ (ls : List (List Char)) (l : List Char), l ∈ cleanLines ls →
      ∃ y, y ∈ ls ∧ isButtonLine y = false ∧ l = removeVideoMarkers y) ∧
    (∀ l : List Char, hasMarker l = false → removeVideoMarkers l = l) := by
  refine ⟨?_, ?_, ?_⟩
  · intro pre post x hpre hx
    exact boldLines_first pre post x hpre hx
  · exact cleanLines_mem
  · intro l hm
    exact stripMarkers_id l.length l (le_refl _) hm

/-- Witness for claim C8 (amended) at a concrete input: the first non-blank
line `h` of a three-line text is wrapped, and the marker-free line `ab` is
left unchanged by the marker scan. -/
theorem c8_amended_clean_witness :
    boldLines [[' '], ['h'], ['w']]
      = [[' '], bOpenChars ++ ['h'] ++ bCloseChars, ['w']] ∧
    removeVideoMarkers ['a', 'b'] = ['a', 'b'] := by
  have h := c8_amended_clean_and_bold
  exact ⟨h.1 [[' ']] [['w']] ['h'] (by decide) (by decide),
    h.2.2 ['a', 'b'] (by decide)⟩

/-- Helper: consing onto a non-empty list keeps its last element. -/
theorem getLast?_cons_of_ne_nil {α : Type} (a : α) (l : List α) (h : l ≠ []) :
    (a :: l).getLast? = l.getLast? := by
  cases l with
  | nil => exact absurd rfl h
  | cons b bs => exact List.getLast?_cons_cons

/-- Helper: appending a non-empty list determines the last element. -/
theorem getLast?_append_right {α : Type} (l1 l2 : List α) (h : l2 ≠ []) :
    (l1 ++ l2).getLast? = l2.getLast? := by
  induction l1 with
  | nil => rfl
  | cons a as ih =>
    have hne : as ++ l2 ≠ [] := by
      simp only [ne_eq, List.append_eq_nil]
      rintro ⟨_, h2⟩
      exact h h2
    rw [List.cons_append, getLast?_cons_of_ne_nil _ _ hne, ih]

/-- Helper: with an all-success transport the text loop performs exactly one
send per chunk and neither flags the identity nor halts. -/
theorem textLoop_ok (oc : Nat → Outcome) (kb hasV : Bool) (total : Nat)
    (hok : ∀ j, oc j = .ok) :
    ∀ (chunks : List (List Char)) (k : Nat),
      textLoop oc kb hasV total chunks k
        = ⟨textOpsPure kb hasV total chunks k, false, false⟩ := by
  intro chunks
  induction chunks with
  | nil => intro k; rfl
  | cons c rest ih =>
    intro k
    rw [textLoop, textOpsPure]
    simp [hok k, ih (k + 1)]

/-- Helper: with an all-success transport the media loop performs exactly
one send per reference, choosing the variant dictated by the cache and the
file system. -/
theorem videoLoop_ok (env : RenderEnv) (oc : Nat → Outcome) (kb : Bool) (total : Nat)
    (hok : ∀ j, oc j = .ok) :
    ∀ (refs : List Nat) (i k : Nat) (inact : Bool),
      videoLoop env oc kb total refs i k inact
        = ⟨videoOpsPure env kb total refs i, inact, false⟩ := by
  intro refs
  induction refs with
  | nil => intro i k inact; rfl
  | cons n rest ih =>
    intro i k inact
    rw [videoLoop, videoOpsPure]
    cases hf : env.fileId n with
    | some fid => simp [hf, hok k, mediaVariant, ih]
    | none =>
      cases hpe : env.pathExists n
      · simp [hf, hpe, hok k, mediaVariant, ih]
      · simp [hf, hpe, hok k, mediaVariant, ih]

/-- Helper: the control flag of a media variant is its attach argument. -/
theorem opHasKb_mediaVariant (env : RenderEnv) (n : Nat) (a : Bool) :
    opHasKb (mediaVariant env n a) = a := by
  cases hf : env.fileId n with
  | some fid => simp [mediaVariant, hf, opHasKb]
  | none =>
    cases hpe : env.pathExists n <;> simp [mediaVariant, hf, hpe, opHasKb]

/-- Helper: when the step has media, no text send carries the control. -/
theorem textOpsPure_hasV_no_kb (kb : Bool) (total : Nat) :
    ∀ (chunks : List (List Char)) (k : Nat),
      (textOpsPure kb true total chunks k).filter opHasKb = [] := by
  intro chunks
  induction chunks with
  | nil => intro k; rfl
  | cons c rest ih =>
    intro k
    rw [textOpsPure]
    simp [opHasKb, ih (k + 1)]

/-- Helper: the pure text-send list of a non-empty chunk list is non-empty. -/
theorem textOpsPure_ne_nil (kb hasV : Bool) (total : Nat)
    (chunks : List (List Char)) (k : Nat) (h : chunks ≠ []) :
    textOpsPure kb hasV total chunks k ≠ [] := by
  cases chunks with
  | nil => exact absurd rfl h
  | cons c rest => rw [textOpsPure]; simp

/-- Helper: the pure media-send list of a non-empty reference list is
non-empty. -/
theorem videoOpsPure_ne_nil (env : RenderEnv) (kb : Bool) (total : Nat)
    (refs : List Nat) (i : Nat) (h : refs ≠ []) :
    videoOpsPure env kb total refs i ≠ [] := by
  cases refs with
  | nil => exact absurd rfl h
  | cons n rest => rw [videoOpsPure]; simp

/-- Helper: in the gated text-only configuration, exactly the send of the
last chunk carries the control, and it is the last send. -/
theorem textOpsPure_filter_last (total : Nat) :
    ∀ (chunks : List (List Char)) (k : Nat), chunks ≠ [] →
      k + chunks.length = total →
      ∃ c, chunks.getLast? = some c ∧
        (textOpsPure true false total chunks k).filter opHasKb = [Op.msg c true] ∧
        (textOpsPure true false total chunks k).getLast? = some (Op.msg c true) := by
  intro chunks
  induction chunks with
  | nil => intro k h _; exact absurd rfl h
  | cons c rest ih =>
    intro k hne hk
    cases rest with
    | nil =>
      have hkt : k = total - 1 := by simp at hk; omega
      have hatt : (!false && true && decide (k = total - 1)) = true := by
        simp [hkt]
      refine ⟨c, rfl, ?_, ?_⟩
      · rw [textOpsPure, textOpsPure, hatt]
        simp [List.filter_cons, opHasKb]
      · rw [textOpsPure, textOpsPure, hatt]
        rfl
    | cons c2 rest2 =>
      have hklt : ¬ (k = total - 1) := by
        simp only [List.length_cons] at hk
        omega
      have hatt : (!false && true && decide (k = total - 1)) = false := by
        simp [hklt]
      obtain ⟨c0, hc0, hfil, hlast⟩ := ih (k + 1) (by simp)
        (by simp only [List.length_cons] at hk ⊢; omega)
      refine ⟨c0, by rw [List.getLast?_cons_cons]; exact hc0, ?_, ?_⟩
      · rw [textOpsPure, hatt]
        simp only [List.filter_cons, opHasKb, Bool.false_eq_true, if_false]
        exact hfil
      · rw [textOpsPure, hatt,
          getLast?_cons_of_ne_nil _ _ (textOpsPure_ne_nil true false total _ (k + 1)
            (by simp))]
        exact hlast

/-- Helper: in the gated configuration, exactly the delivery of the last
media reference carries the control — in whichever variant the cache and
file system select — and it is the last send. -/
theorem videoOpsPure_filter_last (env : RenderEnv) (total : Nat) :
    ∀ (refs : List Nat) (i : Nat), refs ≠ [] → i + refs.length = total →
      ∃ n, refs.getLast? = some n ∧
        (videoOpsPure env true total refs i).filter opHasKb
          = [mediaVariant env n true] ∧
        (videoOpsPure env true total refs i).getLast?
          = some (mediaVariant env n true) := by
  intro refs
  induction refs with
  | nil => intro i h _; exact absurd rfl h
  | cons n rest ih =>
    intro i hne hk
    cases rest with
    | nil =>
      have hit : i = total - 1 := by simp at hk; omega
      have hatt : (true && decide (i = total - 1)) = true := by simp [hit]
      refine ⟨n, rfl, ?_, ?_⟩
      · rw [videoOpsPure, videoOpsPure, hatt]
        simp [List.filter_cons, opHasKb_mediaVariant]
      · rw [videoOpsPure, videoOpsPure, hatt]
        rfl
    | cons m rest2 =>
      have hilt : ¬ (i = total - 1) := by
        simp only [List.length_cons] at hk
        omega
      have hatt : (true && decide (i = total - 1)) = false := by simp [hilt]
      obtain ⟨n0, hn0, hfil, hlast⟩ := ih (i + 1) (by simp)
        (by simp only [List.length_cons] at hk ⊢; omega)
      refine ⟨n0, by rw [List.getLast?_cons_cons]; exact hn0, ?_, ?_⟩
      · rw [videoOpsPure, hatt]
        simp only [List.filter_cons, opHasKb_mediaVariant, Bool.false_eq_true, if_false]
        exact hfil
      · rw [videoOpsPure, hatt,
          getLast?_cons_of_ne_nil _ _ (videoOpsPure_ne_nil env true total _ (i + 1)
            (by simp))]
        exact hlast

/-- Helper: with an all-success transport, a step with text or media renders
its text sends followed by its media sends, with no inactive flag and no
early return. -/
theorem sendStepModel_ok (env : RenderEnv) (oc : Nat → Outcome) (step : Step)
    (hok : ∀ j, oc j = .ok) (hne : step.text ≠ [] ∨ step.videos ≠ []) :
    sendStepModel env oc step =
      ⟨(if step.text.isEmpty then []
        else textOpsPure (hasBtn step) (!step.videos.isEmpty)
          (splitText (boldFirstLine step.text) 3500).length
          (splitText (boldFirstLine step.text) 3500) 0)
        ++ videoOpsPure env (hasBtn step) step.videos.length step.videos 0,
       false, false⟩ := by
  rw [sendStepModel]
  cases ht : step.text.isEmpty
  · simp only [ht, Bool.false_eq_true, if_false]
    rw [textLoop_ok oc _ _ _ hok, videoLoop_ok env oc _ _ hok]
    simp [ht]
  · have hv : step.videos ≠ [] := by
      rcases hne with h | h
      · exact absurd (by cases hx : step.text with
          | nil => rfl
          | cons a as => rw [hx] at ht; exact absurd ht (by simp)) h
      · exact h
    have hve : step.videos.isEmpty = false := isEmpty_false_of_ne_nil hv
    simp only [ht, if_true]
    rw [videoLoop_ok env oc _ _ hok]
    simp [ht, hve]

/-- Claim C7: with a button present and every transport call succeeding —
the configuration in which all three variants of the claim (cached send,
file send, missing-file notice) arise — a step with media attaches the
control to exactly one send, namely the delivery of the last media
reference in whichever variant the cache and file system select, and to no
text part; a step with non-empty text, no media, and at least one emitted
chunk attaches the control to exactly the send of the last text part. -/
theorem c7_control_attaches_last (env : RenderEnv) (oc : Nat → Outcome) (step : Step)
    (hok : ∀ j, oc j = .ok) (hbtn : hasBtn step = true) :
    (step.videos ≠ [] →
      ∃ n, step.videos.getLast? = some n ∧
        (sendStepModel env oc step).ops.filter opHasKb = [mediaVariant env n true] ∧
        (sendStepModel env oc step).ops.getLast? = some (mediaVariant env n true)) ∧
    (step.videos = [] → step.text ≠ [] →
      splitText (boldFirstLine step.text) 3500 ≠ [] →
      ∃ c, (splitText (boldFirstLine step.text) 3500).getLast? = some c ∧
        (sendStepModel env oc step).ops.filter opHasKb = [Op.msg c true] ∧
        (sendStepModel env oc step).ops.getLast? = some (Op.msg c true)) := by
  constructor
  · intro hv
    have hve : step.videos.isEmpty = false := isEmpty_false_of_ne_nil hv
    have hchar := sendStepModel_ok env oc step hok (Or.inr hv)
    rw [hbtn, hve] at hchar
    simp only [Bool.not_false] at hchar
    obtain ⟨n, hn, hfil, hlast⟩ := videoOpsPure_filter_last env step.videos.length
      step.videos 0 hv (by omega)
    have hfT : (if step.text.isEmpty then ([] : List Op)
        else textOpsPure true true
          (splitText (boldFirstLine step.text) 3500).length
          (splitText (boldFirstLine step.text) 3500) 0).filter opHasKb = [] := by
      cases ht : step.text.isEmpty
      · simp only [ht, Bool.false_eq_true, if_false]
        exact textOpsPure_hasV_no_kb true _ _ 0
      · simp [ht]
    refine ⟨n, hn, ?_, ?_⟩
    · rw [hchar]
      simp only [List.filter_append, hfT, List.nil_append]
      exact hfil
    · rw [hchar]
      simp only []
      rw [getLast?_append_right _ _ (videoOpsPure_ne_nil env true _ _ 0 hv)]
      exact hlast
  · intro hv ht hch
    have hchar := sendStepModel_ok env oc step hok (Or.inl ht)
    have hte : step.text.isEmpty = false := isEmpty_false_of_ne_nil ht
    rw [hbtn, hv] at hchar
    simp only [hte, Bool.false_eq_true, if_false, List.isEmpty_nil, Bool.not_true,
      List.length_nil, videoOpsPure, List.append_nil] at hchar
    obtain ⟨c, hc, hfil, hlast⟩ := textOpsPure_filter_last
      (splitText (boldFirstLine step.text) 3500).length
      (splitText (boldFirstLine step.text) 3500) 0 hch (by omega)
    refine ⟨c, hc, ?_, ?_⟩
    · rw [hchar]
      exact hfil
    · rw [hchar]
      exact hlast

/-- Step used by the C7 witness: text, a button, and two media references. -/
def c7Step : Step := ⟨['h', 'i'], some ['G', 'o'], [1, 2]⟩

/-- Environment of the C7 witness: nothing cached and no file on disk, so
both references fall to the missing-file notice. -/
def c7Env : RenderEnv := ⟨fun _ => none, fun _ => false⟩

/-- Witness for claim C7 at a concrete input: the control sits on exactly
the missing-file notice of the last reference, and that notice is the last
send of the render. -/
theorem c7_control_witness :
    (sendStepModel c7Env (fun _ => .ok) c7Step).ops.filter opHasKb
      = [Op.noticeMissing 2 true] ∧
    (sendStepModel c7Env (fun _ => .ok) c7Step).ops.getLast?
      = some (Op.noticeMissing 2 true) := by
  have h := (c7_control_attaches_last c7Env (fun _ => .ok) c7Step
    (fun j => rfl) (by decide)).1 (by decide)
  obtain ⟨n, hn, hfil, hlast⟩ := h
  have hn2 : n = 2 := by
    have : some (2 : Nat) = some n := hn
    exact (Option.some.inj this).symm
  subst hn2
  exact ⟨hfil, hlast⟩

end FabrBot
